import Mathlib

/-!
Shallow embedding of the rna_map bit-vector generation and aggregation core:
the CIGAR-to-bit-vector converter (`rna_map/analysis/bit_vector_iterator.py`),
the mutation-histogram aggregator (`rna_map/analysis/mutation_histogram.py`)
and the acceptance filter (`rna_map/pipeline/bit_vector_generator.py`).

Conventions used throughout:
- Python strings are modelled as `List Char`; the numpy float count arrays
  only ever hold integral sums, for which float arithmetic is exact, so they
  are modelled as `List Int`, with true divisions performed in `ℚ`.
- Python dicts keyed by reference position are modelled extensionally as
  partial functions `Int → Option Char`.
- Python slice and index semantics (negative indices wrap once, slices clamp)
  are reproduced by `pySlice` / `pyGetD`; theorems that speak about actual
  read/reference characters carry in-range hypotheses so the lookup defaults
  are irrelevant there.
- Fallible operations (`merge`, `get_signal_to_noise`) return `Except`.
-/

namespace RnaMap

/-- Python slice `s[a:b]`: negative bounds are offset by the length once, then
both bounds are clamped into `[0, len]`. -/
def pySlice (s : List Char) (a b : Int) : List Char :=
  let n : Int := s.length
  let a2 := if a < 0 then max (n + a) 0 else min a n
  let b2 := if b < 0 then max (n + b) 0 else min b n
  (s.drop a2.toNat).take (b2 - a2).toNat

/-- Python index `s[k]` with default: a negative index is offset by the length
once; an index that is still out of range yields the default. -/
def pyGetD (s : List Char) (k : Int) (d : Char) : Char :=
  let k2 := if k < 0 then k + s.length else k
  if 0 ≤ k2 ∧ k2 < (s.length : Int) then s.getD k2.toNat d else d

/-- Python `range(a, b)` as a list of integers. -/
def pyRange (a b : Int) : List Int :=
  (List.range (b - a).toNat).map (fun k => a + k)

/-- numpy float-array read `arr[k]`; the count arrays only ever hold integral
values, for which float arithmetic is exact, so they are modelled as integer
lists.  Out-of-range reads default to `0`. -/
def npGetD (l : List Int) (k : Int) : Int :=
  let k2 := if k < 0 then k + l.length else k
  if 0 ≤ k2 ∧ k2 < (l.length : Int) then l.getD k2.toNat 0 else 0

/-- numpy in-place increment `arr[k] += 1`. -/
def npBump (l : List Int) (k : Int) : List Int :=
  let k2 := if k < 0 then k + l.length else k
  if 0 ≤ k2 ∧ k2 < (l.length : Int) then l.set k2.toNat (l.getD k2.toNat 0 + 1) else l

/-- In-place increment for a Python int list `lst[k] += 1`. -/
def natBump (l : List Nat) (k : Nat) : List Nat :=
  l.set k (l.getD k 0 + 1)

/-- Python `round(x, 2)` modelled on exact rationals: scale by 100, round
half-to-even, scale back. -/
def pyRound2 (x : ℚ) : ℚ :=
  let y := x * 100
  let f : ℤ := ⌊y⌋
  let r := y - f
  let z : ℤ :=
    if r < 1 / 2 then f
    else if 1 / 2 < r then f + 1
    else if f % 2 = 0 then f else f + 1
  (z : ℚ) / 100

/-- `BitVectorSymbols` from `rna_map/core/bit_vector.py`. -/
structure BitVectorSymbols where
  miss_info : Char := '*'
  ambig_info : Char := '?'
  nomut_bit : Char := '0'
  del_bit : Char := '1'

/-- The single symbols instance the iterator and generator construct. -/
def bts : BitVectorSymbols := {}

/-- `self.__bases = ["A", "C", "G", "T"]`. -/
def bases : List Char := ['A', 'C', 'G', 'T']

/-- The full fixed symbol alphabet a bit vector may contain. -/
def alphabet : List Char := ['0', '?', '*', '1', 'A', 'C', 'G', 'T']

/-- The per-base (A/C/G/T) position-indexed mutation-count arrays
(`mod_bases` dict of `MutationHistogram`). -/
structure ModBases where
  A : List Int
  C : List Int
  G : List Int
  T : List Int
deriving DecidableEq

/-- The skip-reason counter map of `MutationHistogram` (its four fixed keys). -/
structure Skips where
  low_mapq : Nat
  short_read : Nat
  too_many_muts : Nat
  muts_too_close : Nat
deriving DecidableEq

/-- A skip reason accepted by `MutationHistogram.record_skip`. -/
inductive SkipType
  | low_mapq
  | short_read
  | too_many_muts
  | muts_too_close
deriving DecidableEq

/-- `MutationHistogram` from `rna_map/analysis/mutation_histogram.py`.
The optional secondary structure field is `structure_` because `structure`
is a Lean keyword; `end_` likewise stands for the Python `end` attribute. -/
structure MutationHistogram where
  name : String
  sequence : List Char
  structure_ : Option (List Char)
  data_type : String
  num_reads : Nat
  num_aligned : Nat
  skips : Skips
  num_of_mutations : List Nat
  mut_bases : List Int
  info_bases : List Int
  del_bases : List Int
  ins_bases : List Int
  cov_bases : List Int
  mod_bases : ModBases
  start : Int
  end_ : Int
deriving DecidableEq

/-- Elementwise numpy `+=` of two equally-shaped count arrays. -/
def npAdd (a b : List Int) : List Int := List.zipWith (· + ·) a b

/-- The Python loop `for ii in range(len(other)): self[ii] += other[ii]` on
`num_of_mutations` (faithful when `other` is no longer than `self`, which is
forced by the equal-sequence guard in `merge`). -/
def addCounts (a b : List Nat) : List Nat :=
  List.zipWith (· + ·) a b ++ a.drop b.length

/-- `MutationHistogram.merge`: six identity guards (raising `ValueError` in
source order), then summation of the counters and arrays.  Note that the
source sums `mut_bases`, `ins_bases`, `cov_bases`, `info_bases` and
`mod_bases` but never touches `del_bases`; the embedding reproduces that. -/
def merge (a b : MutationHistogram) : Except String MutationHistogram :=
  if a.name ≠ b.name then
    Except.error "MutationalHistogram names do not match cannot merge"
  else if a.sequence ≠ b.sequence then
    Except.error "MutationalHistogram sequences do not match cannot merge"
  else if a.data_type ≠ b.data_type then
    Except.error "MutationalHistogram data_types do not match cannot merge"
  else if a.start ≠ b.start then
    Except.error "MutationalHistogram starts do not match cannot merge"
  else if a.end_ ≠ b.end_ then
    Except.error "MutationalHistogram ends do not match cannot merge"
  else if a.structure_ ≠ b.structure_ then
    Except.error "MutationalHistogram structures do not match cannot merge"
  else
    Except.ok
      { a with
        num_reads := a.num_reads + b.num_reads
        num_aligned := a.num_aligned + b.num_aligned
        skips :=
          { low_mapq := a.skips.low_mapq + b.skips.low_mapq
            short_read := a.skips.short_read + b.skips.short_read
            too_many_muts := a.skips.too_many_muts + b.skips.too_many_muts
            muts_too_close := a.skips.muts_too_close + b.skips.muts_too_close }
        num_of_mutations := addCounts a.num_of_mutations b.num_of_mutations
        mut_bases := npAdd a.mut_bases b.mut_bases
        ins_bases := npAdd a.ins_bases b.ins_bases
        cov_bases := npAdd a.cov_bases b.cov_bases
        info_bases := npAdd a.info_bases b.info_bases
        mod_bases :=
          { A := npAdd a.mod_bases.A b.mod_bases.A
            C := npAdd a.mod_bases.C b.mod_bases.C
            G := npAdd a.mod_bases.G b.mod_bases.G
            T := npAdd a.mod_bases.T b.mod_bases.T } }

/-- `MutationHistogram.record_skip`. -/
def record_skip (mh : MutationHistogram) (t : SkipType) : MutationHistogram :=
  { mh with
    num_reads := mh.num_reads + 1
    skips :=
      match t with
      | SkipType.low_mapq => { mh.skips with low_mapq := mh.skips.low_mapq + 1 }
      | SkipType.short_read => { mh.skips with short_read := mh.skips.short_read + 1 }
      | SkipType.too_many_muts => { mh.skips with too_many_muts := mh.skips.too_many_muts + 1 }
      | SkipType.muts_too_close => { mh.skips with muts_too_close := mh.skips.muts_too_close + 1 } }

/-- `MutationHistogram.get_nuc_coords`: `list(range(start, end + 1))`. -/
def get_nuc_coords (mh : MutationHistogram) : List Int :=
  pyRange mh.start (mh.end_ + 1)

/-- `MutationHistogram.get_percent_mutations`:
`num_of_mutations[0:4] + [sum(num_of_mutations[5:])]`, scaled by
`100 / num_aligned` and rounded to two decimals, all-zero if nothing
aligned. -/
def get_percent_mutations (mh : MutationHistogram) : List ℚ :=
  let dataArray : List Nat :=
    mh.num_of_mutations.take 4 ++ [(mh.num_of_mutations.drop 5).sum]
  if mh.num_aligned ≠ 0 then
    dataArray.map (fun x => pyRound2 ((x : ℚ) / mh.num_aligned * 100))
  else
    [0, 0, 0, 0, 0]

/-- The accumulation loop of `get_signal_to_noise`: walk the nucleotide
coordinates, adding each position's mutation count to the `AC` bucket when the
reference base there is `A` or `C` and to the `GU` bucket otherwise. -/
def s2nLoop (seq : List Char) (muts : List Int) : List Int → Int × Int → Int × Int
  | [], acc => acc
  | pos :: rest, (ac, gu) =>
    if pyGetD seq (pos - 1) '_' = 'A' ∨ pyGetD seq (pos - 1) '_' = 'C' then
      s2nLoop seq muts rest (ac + npGetD muts pos, gu)
    else
      s2nLoop seq muts rest (ac, gu + npGetD muts pos)

/-- `MutationHistogram.get_signal_to_noise`.  Python raises
`ZeroDivisionError` at `AC /= float(AC_count)` when the reference has no A/C
bases, and at `GU /= float(GU_count)` when it has no G/U/T bases; only after
both divisions does it test `GU == 0` and return `0.0`. -/
def get_signal_to_noise (mh : MutationHistogram) : Except String ℚ :=
  let seq := mh.sequence
  let acCount := seq.count 'A' + seq.count 'C'
  let guCount := seq.count 'G' + seq.count 'U' + seq.count 'T'
  let p := s2nLoop seq mh.mut_bases (get_nuc_coords mh) (0, 0)
  if acCount = 0 then Except.error "float division by zero"
  else
    let ac := (p.1 : ℚ) / (acCount : ℚ)
    if guCount = 0 then Except.error "float division by zero"
    else
      let gu := (p.2 : ℚ) / (guCount : ℚ)
      if gu = 0 then Except.ok 0
      else Except.ok (pyRound2 (ac / gu))

/-- Is an `Except` result an error? -/
def exceptIsError {α : Type} : Except String α → Bool
  | Except.error _ => true
  | Except.ok _ => false

/-- Project the `del_bases` array out of a merge result. -/
def mergedDelBases (r : Except String MutationHistogram) : Option (List Int) :=
  match r with
  | Except.ok m => some m.del_bases
  | Except.error _ => none

/-! ## CIGAR-to-bit-vector converter (`BitVectorIterator`) -/

/-- The empty position-to-symbol dict. -/
def emptyBv : Int → Option Char := fun _ => none

/-- Dict assignment `bitvector[p] = c`. -/
def updateBv (bv : Int → Option Char) (p : Int) (c : Char) : Int → Option Char :=
  fun q => if q = p then some c else bv q

/-- `BitVectorIterator._process_match_operation`: one `M` run of the given
length.  Per base: quality strictly above the cutoff emits the read letter on
a mismatch with `ref_seq[i - 1]` and the no-mutation bit on a match; quality
at or below the cutoff emits the ambiguous bit; both cursors advance. -/
def processMatchOperation (phred : Char → Nat) (cutoff : Nat)
    (readSeq qScores refSeq : List Char) (bv : Int → Option Char)
    (i : Int) (j : Nat) : Nat → (Int → Option Char) × Int × Nat
  | 0 => (bv, i, j)
  | Nat.succ len =>
    let sym :=
      if phred (qScores.getD j '!') > cutoff then
        if readSeq.getD j 'N' ≠ pyGetD refSeq (i - 1) 'N' then readSeq.getD j 'N'
        else bts.nomut_bit
      else bts.ambig_info
    processMatchOperation phred cutoff readSeq qScores refSeq
      (updateBv bv i sym) (i + 1) (j + 1) len

/-- `BitVectorIterator.__calc_ambig_reads`: the deletion at reference
positions `[i - L + 1, i]` is ambiguous when excising any shifted span of the
same length from the fixed surrounding window
`[i - L + 1 - W, i + W]` reproduces the window-minus-original-span string. -/
def calcAmbigReads (refSeq : List Char) (i : Int) (L W : Nat) : Bool :=
  let origDelStart := i - L + 1
  let origSurStart := origDelStart - W
  let origSurEnd := i + W
  let origSurSeq :=
    pySlice refSeq (origSurStart - 1) (origDelStart - 1) ++ pySlice refSeq i origSurEnd
  (pyRange (i - L) (i + L + 1)).any (fun newDelEnd =>
    if newDelEnd = i then false
    else
      let newDelStart := newDelEnd - L + 1
      (pySlice refSeq (origSurStart - 1) (newDelStart - 1)
        ++ pySlice refSeq newDelEnd origSurEnd) = origSurSeq)

/-- The `for _ in range(length - 1)` loop of the deletion handler: write the
ambiguous bit at each position and advance the reference cursor. -/
def writeAmbigRun (bv : Int → Option Char) (i : Int) : Nat → (Int → Option Char) × Int
  | 0 => (bv, i)
  | Nat.succ len => writeAmbigRun (updateBv bv i bts.ambig_info) (i + 1) len

/-- `BitVectorIterator._process_deletion_operation`: ambiguous bits at the
first `L - 1` spanned positions, then the resolver decides between the
ambiguous bit and the deletion bit at the final position. -/
def processDeletionOperation (refSeq : List Char) (W : Nat)
    (bv : Int → Option Char) (i : Int) (L : Nat) : (Int → Option Char) × Int :=
  let r := writeAmbigRun bv i (L - 1)
  let isAmbig := calcAmbigReads refSeq r.2 L W
  let bv2 := updateBv r.1 r.2 (if isAmbig then bts.ambig_info else bts.del_bit)
  (bv2, r.2 + 1)

/-- The trailing-soft-clip loop: write the missing bit at the next `L`
reference positions. -/
def writeMissRun (bv : Int → Option Char) (i : Int) : Nat → (Int → Option Char) × Int
  | 0 => (bv, i)
  | Nat.succ len => writeMissRun (updateBv bv i bts.miss_info) (i + 1) len

/-- `BitVectorIterator._process_soft_clip_operation`: always advances the read
cursor; emits missing bits and advances the reference cursor only when the
clip is the final CIGAR operation. -/
def processSoftClipOperation (bv : Int → Option Char) (i : Int) (j : Nat)
    (L : Nat) (isLast : Bool) : (Int → Option Char) × Int × Nat :=
  let j2 := j + L
  if isLast then
    let r := writeMissRun bv i L
    (r.1, r.2, j2)
  else (bv, i, j2)

/-- The dispatch loop of `BitVectorIterator.__convert_read_to_bit_vector`
over the parsed CIGAR operations; an unknown operation yields the empty
dict. -/
def convertGo (phred : Char → Nat) (cutoff W : Nat)
    (readSeq qScores refSeq : List Char)
    (bv : Int → Option Char) (i : Int) (j : Nat) :
    List (Nat × Char) → (Int → Option Char)
  | [] => bv
  | (len, desc) :: rest =>
    if desc = 'M' then
      let r := processMatchOperation phred cutoff readSeq qScores refSeq bv i j len
      convertGo phred cutoff W readSeq qScores refSeq r.1 r.2.1 r.2.2 rest
    else if desc = 'D' then
      let r := processDeletionOperation refSeq W bv i len
      convertGo phred cutoff W readSeq qScores refSeq r.1 r.2 j rest
    else if desc = 'I' then
      convertGo phred cutoff W readSeq qScores refSeq bv i (j + len) rest
    else if desc = 'S' then
      let r := processSoftClipOperation bv i j len rest.isEmpty
      convertGo phred cutoff W readSeq qScores refSeq r.1 r.2.1 r.2.2 rest
    else emptyBv

/-- `BitVectorIterator.__convert_read_to_bit_vector`: start the cursors at the
read's leftmost reference position and read offset `0`. -/
def convertReadToBitVector (phred : Char → Nat) (cutoff W : Nat)
    (readSeq qScores refSeq : List Char) (pos : Int)
    (ops : List (Nat × Char)) : Int → Option Char :=
  convertGo phred cutoff W readSeq qScores refSeq emptyBv pos 0 ops

/-! ## Paired-read merger -/

/-- `BitVectorIterator._is_mutation_vs_deletion`. -/
def isMutationVsDeletion (bit1 bit2 : Char) : Bool :=
  (bit1 = bts.del_bit && bases.contains bit2)
    || (bases.contains bit1 && bit2 = bts.del_bit)

/-- `BitVectorIterator._resolve_bit_conflict`, extended with a flag that is
`true` exactly on the final warn-and-return-`bit1` branch.  The function is
only ever invoked on distinct bits, for which removing the matched singleton
from the two-element Python set leaves exactly the other bit. -/
def resolveBitConflict (bit1 bit2 : Char) : Char × Bool :=
  if bit1 = bts.nomut_bit ∨ bit2 = bts.nomut_bit then (bts.nomut_bit, false)
  else if bit1 = bts.ambig_info then (bit2, false)
  else if bit2 = bts.ambig_info then (bit1, false)
  else if bit1 = bts.miss_info then (bit2, false)
  else if bit2 = bts.miss_info then (bit1, false)
  else if bases.contains bit1 && bases.contains bit2 then (bts.ambig_info, false)
  else if isMutationVsDeletion bit1 bit2 then (bts.ambig_info, false)
  else (bit1, true)

/-- `BitVectorIterator.__merge_paired_bit_vectors`, extensionally: start from
mate 1's dict; positions only in mate 2 are inserted, positions in both with
differing symbols are resolved against mate 1's original symbol. -/
def mergePairedBitVectors (bv1 bv2 : Int → Option Char) : Int → Option Char :=
  fun pos =>
    match bv1 pos, bv2 pos with
    | none, none => none
    | some b1, none => some b1
    | none, some b2 => some b2
    | some b1, some b2 =>
      if b2 ≠ b1 then some (resolveBitConflict b1 b2).1 else some b1

/-! ## Acceptance filter and aggregator (`BitVectorGenerator`) -/

/-- The fields of `AlignedRead` the generator consults. -/
structure AlignedRead where
  qname : String
  rname : String
  pos : Int
  mapq : Nat
  seq : List Char
  qual : List Char
deriving DecidableEq

/-- A `BitVector` value object: originating read(s) plus the position map. -/
structure BitVector where
  reads : List AlignedRead
  data : Int → Option Char

/-- The parameters `BitVectorGenerator` reads from its config. -/
structure BVParams where
  map_score_cutoff : Nat
  stricter_bv_constraints : Bool
  percent_length_cutoff : ℚ
  mutation_count_cutoff : Nat
  min_mut_distance : Nat

/-- `BitVectorGenerator.__are_reads_to_short`. -/
def areReadsTooShort (p : BVParams) (refSeq : List Char)
    (reads : List AlignedRead) : Bool :=
  p.stricter_bv_constraints
    && reads.any (fun r => (r.seq.length : ℚ) / (refSeq.length : ℚ) < p.percent_length_cutoff)

/-- `BitVectorGenerator.__too_many_mutations`. -/
def tooManyMutations (p : BVParams) (mh : MutationHistogram)
    (data : Int → Option Char) : Bool :=
  p.stricter_bv_constraints
    && (((get_nuc_coords mh).countP
          (fun pos => match data pos with
            | some bit => bases.contains bit
            | none => false)) > p.mutation_count_cutoff)

/-- `BitVectorGenerator.__muts_too_close`: a mutation call with another
mutation call strictly inside `[pos - d, pos + d)`, `pos` itself excluded. -/
def mutsTooClose (p : BVParams) (mh : MutationHistogram)
    (data : Int → Option Char) : Bool :=
  p.stricter_bv_constraints
    && (get_nuc_coords mh).any (fun pos =>
        (match data pos with
          | some bit => bases.contains bit
          | none => false)
        && (pyRange (pos - p.min_mut_distance) (pos + p.min_mut_distance)).any
            (fun pos2 =>
              pos2 ≠ pos
                && match data pos2 with
                  | some bit2 => bases.contains bit2
                  | none => false))

/-- `mod_bases[read_bit][pos] += 1` for a mutation-call letter. -/
def modBump (m : ModBases) (bit : Char) (pos : Int) : ModBases :=
  if bit = 'A' then { m with A := npBump m.A pos }
  else if bit = 'C' then { m with C := npBump m.C pos }
  else if bit = 'G' then { m with G := npBump m.G pos }
  else if bit = 'T' then { m with T := npBump m.T pos }
  else m

/-- The per-position loop of `BitVectorGenerator.__update_mut_histo`,
accumulating the running per-read mutation tally. -/
def updateLoop (data : Int → Option Char) :
    List Int → MutationHistogram × Nat → MutationHistogram × Nat
  | [], acc => acc
  | pos :: rest, (mh, totalMuts) =>
    match data pos with
    | none => updateLoop data rest (mh, totalMuts)
    | some bit =>
      let mh1 :=
        if bit ≠ bts.ambig_info then { mh with cov_bases := npBump mh.cov_bases pos }
        else mh
      let step :=
        if bases.contains bit then
          ({ mh1 with
              mod_bases := modBump mh1.mod_bases bit pos
              mut_bases := npBump mh1.mut_bases pos }, totalMuts + 1)
        else if bit = bts.del_bit then
          ({ mh1 with del_bases := npBump mh1.del_bases pos }, totalMuts)
        else (mh1, totalMuts)
      updateLoop data rest
        ({ step.1 with info_bases := npBump step.1.info_bases pos }, step.2)

/-- `BitVectorGenerator.__update_mut_histo`. -/
def updateMutHisto (mh : MutationHistogram) (data : Int → Option Char) :
    MutationHistogram :=
  let mh0 := { mh with num_reads := mh.num_reads + 1, num_aligned := mh.num_aligned + 1 }
  let r := updateLoop data (get_nuc_coords mh0) (mh0, 0)
  { r.1 with num_of_mutations := natBump r.1.num_of_mutations r.2 }

/-- `BitVectorGenerator.__record_bit_vector` restricted to its effect on the
histogram (the rejected-vector CSV line and storage writers are I/O only):
reject on low mapping quality first, then the three stricter constraints,
otherwise aggregate. -/
def recordBitVector (p : BVParams) (refSeq : List Char)
    (mh : MutationHistogram) (bv : BitVector) : MutationHistogram :=
  if bv.reads.any (fun r => r.mapq < p.map_score_cutoff) then
    record_skip mh SkipType.low_mapq
  else if areReadsTooShort p refSeq bv.reads then
    record_skip mh SkipType.short_read
  else if tooManyMutations p mh bv.data then
    record_skip mh SkipType.too_many_muts
  else if mutsTooClose p mh bv.data then
    record_skip mh SkipType.muts_too_close
  else updateMutHisto mh bv.data

/-! ## Claim-side (spec-worded) definitions, for comparison with the code -/

/-- The flanking signature exactly as claim C4 words it for any deletion of
length `L` ending at `e`: the `W` reference bases immediately before the
deletion's start concatenated with the `W` bases immediately after its end. -/
def claimSig (refSeq : List Char) (e : Int) (L W : Nat) : List Char :=
  let startPos := e - L + 1
  pySlice refSeq (startPos - 1 - W) (startPos - 1) ++ pySlice refSeq e (e + W)

/-- Claim C4's ambiguity condition: some candidate end in `[i - L, i + L]`
other than `i` has a flanking signature (in the claim's sense) identical to
the original's. -/
def claimAmbig (refSeq : List Char) (i : Int) (L W : Nat) : Bool :=
  (pyRange (i - L) (i + L + 1)).any (fun e =>
    e ≠ i && claimSig refSeq e L W = claimSig refSeq i L W)

/-- The signature the source actually compares for a candidate deletion of
length `L` ending at `e`, relative to the original deletion ending at `i`:
the fixed surrounding window `[i - L + 1 - W, i + W]` with the candidate's
span `[e - L + 1, e]` excised. -/
def windowSig (refSeq : List Char) (i : Int) (L W : Nat) (e : Int) : List Char :=
  pySlice refSeq (i - L + 1 - W - 1) (e - L) ++ pySlice refSeq e (i + W)

/-- The claim-C7 `AC` numerator: total mutation count over window positions
whose reference base is `A` or `C`. -/
def specAC (mh : MutationHistogram) : Int :=
  (((get_nuc_coords mh).filter (fun pos =>
      pyGetD mh.sequence (pos - 1) '_' = 'A' ∨ pyGetD mh.sequence (pos - 1) '_' = 'C')).map
    (npGetD mh.mut_bases)).sum

/-- The claim-C7 `GU` numerator: total mutation count over the remaining
window positions. -/
def specGU (mh : MutationHistogram) : Int :=
  (((get_nuc_coords mh).filter (fun pos =>
      ¬(pyGetD mh.sequence (pos - 1) '_' = 'A' ∨ pyGetD mh.sequence (pos - 1) '_' = 'C'))).map
    (npGetD mh.mut_bases)).sum

/-! ## Concrete instances used by the counterexample and evaluation theorems -/

/-- A small well-formed histogram over the two-base reference `AC`. -/
def mhA : MutationHistogram :=
  { name := "ref"
    sequence := ['A', 'C']
    structure_ := none
    data_type := "DMS"
    num_reads := 1
    num_aligned := 1
    skips := ⟨0, 0, 0, 0⟩
    num_of_mutations := [1, 0, 0]
    mut_bases := [0, 0, 0]
    info_bases := [0, 1, 1]
    del_bases := [0, 0, 0]
    ins_bases := [0, 0, 0]
    cov_bases := [0, 1, 1]
    mod_bases := ⟨[0, 0, 0], [0, 0, 0], [0, 0, 0], [0, 0, 0]⟩
    start := 1
    end_ := 2 }

/-- A mergeable partner for `mhA` with nonzero deletion counts. -/
def mhB : MutationHistogram :=
  { mhA with num_reads := 2, del_bases := [0, 1, 1] }

/-- A histogram whose single aligned read carries exactly four mutations. -/
def mhC6 : MutationHistogram :=
  { name := "ref"
    sequence := ['A', 'C', 'G', 'T']
    structure_ := none
    data_type := "DMS"
    num_reads := 1
    num_aligned := 1
    skips := ⟨0, 0, 0, 0⟩
    num_of_mutations := [0, 0, 0, 0, 1]
    mut_bases := [0, 0, 0, 0, 0]
    info_bases := [0, 0, 0, 0, 0]
    del_bases := [0, 0, 0, 0, 0]
    ins_bases := [0, 0, 0, 0, 0]
    cov_bases := [0, 0, 0, 0, 0]
    mod_bases := ⟨[0, 0, 0, 0, 0], [0, 0, 0, 0, 0], [0, 0, 0, 0, 0], [0, 0, 0, 0, 0]⟩
    start := 1
    end_ := 4 }

/-- A histogram over a reference with A/C bases but no G/U/T bases. -/
def mhC7 : MutationHistogram :=
  { mhA with num_of_mutations := [0, 0, 0], mut_bases := [0, 1, 1], info_bases := [0, 0, 0], cov_bases := [0, 0, 0] }

/-- A reference in which a length-1 deletion ending at position 15 sits at the
start of the homopolymer `AA` (positions 15-16), surrounded by period-4
repeats on both sides. -/
def refC4 : List Char := "CTGACTGACTGACTAAGGTCAGTCAGTCAG".toList

/-! ## Theorems -/

/-- Claim C1: merging two identity-equal histograms is supposed to sum every
position-indexed array elementwise, including the deletion array.  Evaluating
the source's `merge` on `mhA` and `mhB` shows the deletion counts of the
second histogram are silently discarded: the merged `del_bases` equals
`mhA.del_bases`, not the elementwise sum. -/
theorem merge_drops_del_bases :
    mergedDelBases (merge mhA mhB) = some mhA.del_bases ∧
    npAdd mhA.del_bases mhB.del_bases = [0, 1, 1] ∧
    mergedDelBases (merge mhA mhB) ≠ some (npAdd mhA.del_bases mhB.del_bases) := by
  decide

/-- Claim C2: because `merge` keeps the left operand's `del_bases` unchanged,
it is not commutative on every array: merging `mhA` with `mhB` and merging
`mhB` with `mhA` disagree on `del_bases`. -/
theorem merge_del_bases_not_commutative :
    mergedDelBases (merge mhA mhB) = some [0, 0, 0] ∧
    mergedDelBases (merge mhB mhA) = some [0, 1, 1] ∧
    mergedDelBases (merge mhA mhB) ≠ mergedDelBases (merge mhB mhA) := by
  decide

/-- Claim C6: `mhC6` has one aligned read with exactly four mutations, so the
percentage of reads with three or more mutations is 100; the source computes
the final bucket as `sum(num_of_mutations[5:])` and returns 0 for it. -/
theorem percent_mutations_drops_bucket_four :
    get_percent_mutations mhC6 = [0, 0, 0, 0, 0] ∧
    (mhC6.num_of_mutations.drop 3).sum = 1 ∧
    mhC6.num_aligned = 1 := by
  refine ⟨?_, by decide, by decide⟩
  norm_num [get_percent_mutations, mhC6, pyRound2]

/-- Claim C7 counterexample: `mhC7`'s reference is `AC`, so it has A/C bases
but zero G/U/T bases; the claim says no division error is raised in that
case, yet the source divides `GU` by the zero G/U/T count before its
`GU == 0` test and raises. -/
theorem s2n_error_despite_ac_bases :
    exceptIsError (get_signal_to_noise mhC7) = true ∧
    mhC7.sequence.count 'A' + mhC7.sequence.count 'C' = 2 ∧
    mhC7.sequence.count 'G' + mhC7.sequence.count 'U' + mhC7.sequence.count 'T' = 0 := by
  decide

/-- Positions left of the starting cursor are untouched by a match run. -/
theorem processMatch_preserve (phred : Char → Nat) (cutoff : Nat)
    (readSeq qScores refSeq : List Char) :
    ∀ (L : Nat) (bv : Int → Option Char) (i : Int) (j : Nat) (p : Int), p < i →
      (processMatchOperation phred cutoff readSeq qScores refSeq bv i j L).1 p = bv p := by
  intro L
  induction L with
  | zero => intro bv i j p hp; rfl
  | succ n ih =>
    intro bv i j p hp
    simp only [processMatchOperation]
    rw [ih _ (i + 1) (j + 1) p (by omega)]
    simp [updateBv, show p ≠ i by omega]

/-- A match run advances both cursors by its length. -/
theorem processMatch_cursors (phred : Char → Nat) (cutoff : Nat)
    (readSeq qScores refSeq : List Char) :
    ∀ (L : Nat) (bv : Int → Option Char) (i : Int) (j : Nat),
      (processMatchOperation phred cutoff readSeq qScores refSeq bv i j L).2.1 = i + L ∧
      (processMatchOperation phred cutoff readSeq qScores refSeq bv i j L).2.2 = j + L := by
  intro L
  induction L with
  | zero => intro bv i j; exact ⟨by simp [processMatchOperation], rfl⟩
  | succ n ih =>
    intro bv i j
    simp only [processMatchOperation]
    obtain ⟨h1, h2⟩ := ih (updateBv bv i _) (i + 1) (j + 1)
    constructor
    · rw [h1]; push_cast; ring
    · rw [h2]; omega

/-- The symbol a match run writes at offset `k`. -/
theorem processMatch_emit (phred : Char → Nat) (cutoff : Nat)
    (readSeq qScores refSeq : List Char) :
    ∀ (L : Nat) (bv : Int → Option Char) (i : Int) (j : Nat) (k : Nat), k < L →
      (processMatchOperation phred cutoff readSeq qScores refSeq bv i j L).1 (i + k) =
        some (if phred (qScores.getD (j + k) '!') > cutoff then
                if readSeq.getD (j + k) 'N' = pyGetD refSeq (i - 1 + k) 'N'
                then bts.nomut_bit else readSeq.getD (j + k) 'N'
              else bts.ambig_info) := by
  intro L
  induction L with
  | zero => intro bv i j k hk; omega
  | succ n ih =>
    intro bv i j k hk
    simp only [processMatchOperation]
    match k with
    | 0 =>
      simp only [Nat.cast_zero, add_zero, Nat.add_zero]
      rw [processMatch_preserve phred cutoff readSeq qScores refSeq n _ (i + 1) (j + 1)
        i (by omega)]
      simp only [updateBv, if_pos rfl]
      by_cases hqc : phred (qScores.getD j '!') > cutoff
      · by_cases hmm : readSeq.getD j 'N' = pyGetD refSeq (i - 1) 'N'
        · simp [hqc, hmm]
        · simp [hqc, hmm]
      · simp [hqc]
    | Nat.succ m =>
      have hpos : i + ((m + 1 : Nat) : Int) = (i + 1) + (m : Int) := by push_cast; ring
      rw [hpos, ih _ (i + 1) (j + 1) m (by omega)]
      have hidx : (i + 1) - 1 + (m : Int) = i - 1 + ((m + 1 : Nat) : Int) := by push_cast; ring
      have hj : (j + 1) + m = j + (m + 1) := by omega
      rw [hidx, hj]

/-- Claim C3: within a CIGAR `M` operation, each base whose decoded quality
score strictly exceeds the cutoff emits the no-mutation bit when the read
base equals the reference base at the current reference position and the read
base letter itself otherwise, while a score at or below the cutoff emits the
ambiguous bit regardless of base identity; both cursors advance by one per
base. -/
theorem process_match_spec (phred : Char → Nat) (cutoff : Nat)
    (readSeq qScores refSeq : List Char) (bv : Int → Option Char)
    (i : Int) (j : Nat) (L : Nat)
    (hi : 1 ≤ i) (hread : j + L ≤ readSeq.length) (hq : j + L ≤ qScores.length)
    (href : i - 1 + L ≤ refSeq.length) :
    (∀ k : Nat, k < L →
      (processMatchOperation phred cutoff readSeq qScores refSeq bv i j L).1 (i + k) =
        some (if phred (qScores.getD (j + k) '!') > cutoff then
                if readSeq.getD (j + k) 'N' = pyGetD refSeq (i - 1 + k) 'N'
                then bts.nomut_bit else readSeq.getD (j + k) 'N'
              else bts.ambig_info)) ∧
    (processMatchOperation phred cutoff readSeq qScores refSeq bv i j L).2.1 = i + L ∧
    (processMatchOperation phred cutoff readSeq qScores refSeq bv i j L).2.2 = j + L :=
  ⟨fun k hk => processMatch_emit phred cutoff readSeq qScores refSeq L bv i j k hk,
   processMatch_cursors phred cutoff readSeq qScores refSeq L bv i j⟩

/-- The sanger-offset phred table used for concrete evaluations. -/
def phredW : Char → Nat := fun c => c.toNat - 33

/-- Witness for C3: a two-base match over reference `AC` with read `AG` and
high-quality scores emits the no-mutation bit at position 1 and the mutation
call `G` at position 2. -/
theorem process_match_spec_witness :
    (processMatchOperation phredW 25 (['A', 'G']) (['I', 'I']) (['A', 'C'])
      emptyBv 1 0 2).1 2 = some 'G' :=
  ((process_match_spec phredW 25 ['A', 'G'] ['I', 'I'] ['A', 'C'] emptyBv 1 0 2
      (by decide) (by decide) (by decide) (by decide)).1 1 (by decide)).trans
    (by decide)

/-- The cursor after an ambiguous-bit run. -/
theorem writeAmbigRun_snd :
    ∀ (L : Nat) (bv : Int → Option Char) (i : Int), (writeAmbigRun bv i L).2 = i + L := by
  intro L
  induction L with
  | zero => intro bv i; simp [writeAmbigRun]
  | succ n ih =>
    intro bv i
    show (writeAmbigRun _ (i + 1) n).2 = _
    rw [ih]
    push_cast
    ring

/-- Positions outside the run are untouched by an ambiguous-bit run. -/
theorem writeAmbigRun_preserve :
    ∀ (L : Nat) (bv : Int → Option Char) (i : Int) (p : Int), (p < i ∨ i + L ≤ p) →
      (writeAmbigRun bv i L).1 p = bv p := by
  intro L
  induction L with
  | zero => intro bv i p _; rfl
  | succ n ih =>
    intro bv i p hp
    show (writeAmbigRun _ (i + 1) n).1 p = bv p
    rw [ih _ (i + 1) p (by omega)]
    simp [updateBv, show p ≠ i by omega]

/-- Every position covered by an ambiguous-bit run holds the ambiguous bit. -/
theorem writeAmbigRun_emit :
    ∀ (L : Nat) (bv : Int → Option Char) (i : Int) (k : Nat), k < L →
      (writeAmbigRun bv i L).1 (i + k) = some bts.ambig_info := by
  intro L
  induction L with
  | zero => intro bv i k hk; omega
  | succ n ih =>
    intro bv i k hk
    show (writeAmbigRun _ (i + 1) n).1 _ = _
    match k with
    | 0 =>
      simp only [Nat.cast_zero, add_zero]
      rw [writeAmbigRun_preserve n _ (i + 1) i (by omega)]
      simp [updateBv]
    | Nat.succ m =>
      have hpos : i + ((m + 1 : Nat) : Int) = (i + 1) + (m : Int) := by push_cast; ring
      rw [hpos, ih _ (i + 1) m (by omega)]

/-- The resolver returns true exactly when some candidate end other than the
original has the same excised-window signature as the original. -/
theorem calcAmbig_iff (refSeq : List Char) (i : Int) (L W : Nat) :
    calcAmbigReads refSeq i L W = true ↔
      ∃ e ∈ pyRange (i - L) (i + L + 1), e ≠ i ∧
        windowSig refSeq i L W e = windowSig refSeq i L W i := by
  have harith : ∀ x : Int, x - L + 1 - 1 = x - L := fun x => by ring
  have hsig : ∀ e : Int, windowSig refSeq i L W e =
      pySlice refSeq (i - L + 1 - W - 1) (e - L + 1 - 1) ++ pySlice refSeq e (i + W) := by
    intro e
    rw [windowSig, harith]
  rw [calcAmbigReads, List.any_eq_true]
  constructor
  · rintro ⟨e, he, hcond⟩
    by_cases hei : e = i
    · rw [if_pos hei] at hcond
      exact absurd hcond (by simp)
    · rw [if_neg hei] at hcond
      refine ⟨e, he, hei, ?_⟩
      rw [hsig e, hsig i]
      exact of_decide_eq_true hcond
  · rintro ⟨e, he, hei, heq⟩
    refine ⟨e, he, ?_⟩
    rw [if_neg hei]
    rw [hsig e, hsig i] at heq
    exact decide_eq_true heq

/-- Claim C4 (amended): a CIGAR `D` operation of length `L` starting with the
reference cursor at `i` writes the ambiguous bit at the first `L - 1` spanned
positions, consults the resolver at the final spanned position
`i + L - 1` and writes the deletion bit exactly when no candidate end in the
inclusive range `[(i + L - 1) - L, (i + L - 1) + L]` other than the original
end has an identical excised-window signature, advances the reference cursor
by `L`, and touches no position outside the span (the read cursor is not an
input of the operation and is passed through unchanged by the dispatch
loop). -/
theorem process_deletion_spec (refSeq : List Char) (W : Nat)
    (bv : Int → Option Char) (i : Int) (L : Nat) (hL : 1 ≤ L) :
    (processDeletionOperation refSeq W bv i L).2 = i + L ∧
    (∀ k : Nat, k < L - 1 →
      (processDeletionOperation refSeq W bv i L).1 (i + k) = some bts.ambig_info) ∧
    ((processDeletionOperation refSeq W bv i L).1 (i + (L - 1 : Nat)) =
      some (if calcAmbigReads refSeq (i + (L - 1 : Nat)) L W then bts.ambig_info
            else bts.del_bit)) ∧
    (calcAmbigReads refSeq (i + (L - 1 : Nat)) L W = true ↔
      ∃ e ∈ pyRange (i + (L - 1 : Nat) - L) (i + (L - 1 : Nat) + L + 1),
        e ≠ i + (L - 1 : Nat) ∧
        windowSig refSeq (i + (L - 1 : Nat)) L W e =
          windowSig refSeq (i + (L - 1 : Nat)) L W (i + (L - 1 : Nat))) ∧
    (∀ p : Int, (p < i ∨ i + L ≤ p) →
      (processDeletionOperation refSeq W bv i L).1 p = bv p) := by
  have hrun := writeAmbigRun_snd (L - 1) bv i
  have hL1 : ((L - 1 : Nat) : Int) + 1 = (L : Int) := by omega
  refine ⟨?_, ?_, ?_, ?_, ?_⟩
  · show (writeAmbigRun bv i (L - 1)).2 + 1 = i + L
    rw [hrun]
    omega
  · intro k hk
    show updateBv (writeAmbigRun bv i (L - 1)).1 (writeAmbigRun bv i (L - 1)).2 _ _ = _
    rw [hrun]
    have hne : i + (k : Int) ≠ i + ((L - 1 : Nat) : Int) := by omega
    rw [updateBv, if_neg hne]
    exact writeAmbigRun_emit (L - 1) bv i k hk
  · show updateBv (writeAmbigRun bv i (L - 1)).1 (writeAmbigRun bv i (L - 1)).2 _ _ = _
    rw [hrun, updateBv, if_pos rfl]
  · exact calcAmbig_iff refSeq (i + (L - 1 : Nat)) L W
  · intro p hp
    show updateBv (writeAmbigRun bv i (L - 1)).1 (writeAmbigRun bv i (L - 1)).2 _ _ = _
    rw [hrun, updateBv, if_neg (by omega)]
    exact writeAmbigRun_preserve (L - 1) bv i p (by omega)

/-- Witness for the amended C4: a length-2 deletion on reference `ACGTT`
starting with the cursor at 2 emits the ambiguous bit at its first covered
position. -/
theorem process_deletion_spec_witness :
    (processDeletionOperation "ACGTT".toList 1 emptyBv 2 2).1 2 = some bts.ambig_info :=
  (process_deletion_spec "ACGTT".toList 1 emptyBv 2 2 (by decide)).2.1 0 (by decide)

/-- Claim C4 counterexample: for the deletion of length 1 ending at position
15 of `refC4` with window radius 10, no candidate end in `[14, 16]`
other than 15 has the claim's symmetric flanking signature equal to the
original's, so the claim requires the deletion bit; the source's resolver
nevertheless reports ambiguity (its candidate signatures keep the original
fixed window) and the converter emits the ambiguous bit. -/
theorem deletion_resolver_mismatch :
    claimAmbig refC4 15 1 10 = false ∧
    calcAmbigReads refC4 15 1 10 = true ∧
    (processDeletionOperation refC4 10 emptyBv 15 1).1 15 = some bts.ambig_info ∧
    bts.ambig_info ≠ bts.del_bit := by
  decide

/-- Rule (a): either bit being the no-mutation bit wins. -/
theorem resolve_nomut (b1 b2 : Char) (h : b1 = bts.nomut_bit ∨ b2 = bts.nomut_bit) :
    resolveBitConflict b1 b2 = (bts.nomut_bit, false) := by
  rw [resolveBitConflict, if_pos h]

/-- Rule (b), left: an ambiguous first bit yields the other bit. -/
theorem resolve_ambig_left (b1 b2 : Char) (h1 : b1 = bts.ambig_info)
    (h2 : b2 ≠ bts.nomut_bit) :
    resolveBitConflict b1 b2 = (b2, false) := by
  subst h1
  rw [resolveBitConflict, if_neg (by simpa [bts] using h2), if_pos rfl]

/-- Rule (b), right: an ambiguous second bit yields the other bit. -/
theorem resolve_ambig_right (b1 b2 : Char) (h2 : b2 = bts.ambig_info)
    (h1 : b1 ≠ bts.nomut_bit) :
    resolveBitConflict b1 b2 = (b1, false) := by
  subst h2
  by_cases ha : b1 = bts.ambig_info
  · subst ha
    rw [resolveBitConflict, if_neg (by simpa [bts] using h1), if_pos rfl]
  · rw [resolveBitConflict, if_neg (by simpa [bts] using h1), if_neg ha, if_pos rfl]

/-- Rule (c), left: a missing first bit yields the other bit. -/
theorem resolve_miss_left (b1 b2 : Char) (h1 : b1 = bts.miss_info)
    (h2 : b2 ≠ bts.nomut_bit) (h3 : b2 ≠ bts.ambig_info) :
    resolveBitConflict b1 b2 = (b2, false) := by
  subst h1
  rw [resolveBitConflict, if_neg (by simpa [bts] using h2), if_neg (by simp [bts]),
    if_neg h3, if_pos rfl]

/-- Rule (c), right: a missing second bit yields the other bit. -/
theorem resolve_miss_right (b1 b2 : Char) (h2 : b2 = bts.miss_info)
    (h1 : b1 ≠ bts.nomut_bit) (h3 : b1 ≠ bts.ambig_info) :
    resolveBitConflict b1 b2 = (b1, false) := by
  subst h2
  by_cases hm : b1 = bts.miss_info
  · subst hm
    rw [resolveBitConflict, if_neg (by simpa [bts] using h1), if_neg h3,
      if_neg (by simp [bts]), if_pos rfl]
  · rw [resolveBitConflict, if_neg (by simpa [bts] using h1), if_neg h3,
      if_neg (by simp [bts]), if_neg hm, if_pos rfl]

/-- Rule (d): two differing mutation-call letters are ambiguous. -/
theorem resolve_two_bases (b1 b2 : Char) (h1 : b1 ∈ bases) (h2 : b2 ∈ bases) :
    resolveBitConflict b1 b2 = (bts.ambig_info, false) := by
  simp only [bases, List.mem_cons, List.not_mem_nil, or_false] at h1 h2
  rcases h1 with rfl | rfl | rfl | rfl <;> rcases h2 with rfl | rfl | rfl | rfl <;> decide

/-- Rule (e): a deletion bit against a mutation-call letter is ambiguous. -/
theorem resolve_mut_vs_del (b1 b2 : Char)
    (h : b1 = bts.del_bit ∧ b2 ∈ bases ∨ b1 ∈ bases ∧ b2 = bts.del_bit) :
    resolveBitConflict b1 b2 = (bts.ambig_info, false) := by
  rcases h with ⟨rfl, h2⟩ | ⟨h1, rfl⟩
  · simp only [bases, List.mem_cons, List.not_mem_nil, or_false] at h2
    rcases h2 with rfl | rfl | rfl | rfl <;> decide
  · simp only [bases, List.mem_cons, List.not_mem_nil, or_false] at h1
    rcases h1 with rfl | rfl | rfl | rfl <;> decide

/-- Claim C5: the paired merger covers the union of positions, keeps the
symbol of a position present in only one mate, and resolves every conflict at
a shared position by the stated precedence; in particular a no-mutation bit
from mate 1 against a mutation call from mate 2 yields the no-mutation
bit. -/
theorem merge_paired_spec (bv1 bv2 : Int → Option Char) (pos : Int) :
    (∀ b1 b2, bv1 pos = some b1 → bv2 pos = some b2 → b1 ≠ b2 →
      ((b1 = bts.nomut_bit ∨ b2 = bts.nomut_bit →
          mergePairedBitVectors bv1 bv2 pos = some bts.nomut_bit) ∧
       (b1 = bts.ambig_info → b2 ≠ bts.nomut_bit →
          mergePairedBitVectors bv1 bv2 pos = some b2) ∧
       (b2 = bts.ambig_info → b1 ≠ bts.nomut_bit →
          mergePairedBitVectors bv1 bv2 pos = some b1) ∧
       (b1 = bts.miss_info → b2 ≠ bts.nomut_bit → b2 ≠ bts.ambig_info →
          mergePairedBitVectors bv1 bv2 pos = some b2) ∧
       (b2 = bts.miss_info → b1 ≠ bts.nomut_bit → b1 ≠ bts.ambig_info →
          mergePairedBitVectors bv1 bv2 pos = some b1) ∧
       (b1 ∈ bases → b2 ∈ bases →
          mergePairedBitVectors bv1 bv2 pos = some bts.ambig_info) ∧
       (b1 = bts.del_bit → b2 ∈ bases →
          mergePairedBitVectors bv1 bv2 pos = some bts.ambig_info) ∧
       (b1 ∈ bases → b2 = bts.del_bit →
          mergePairedBitVectors bv1 bv2 pos = some bts.ambig_info) ∧
       (b1 = bts.nomut_bit → b2 ∈ bases →
          mergePairedBitVectors bv1 bv2 pos = some bts.nomut_bit))) ∧
    (bv1 pos = none → mergePairedBitVectors bv1 bv2 pos = bv2 pos) ∧
    (bv2 pos = none → mergePairedBitVectors bv1 bv2 pos = bv1 pos) ∧
    ((mergePairedBitVectors bv1 bv2 pos).isSome
      = ((bv1 pos).isSome || (bv2 pos).isSome)) := by
  refine ⟨?_, ?_, ?_, ?_⟩
  · intro b1 b2 h1 h2 hne
    have hmerge : mergePairedBitVectors bv1 bv2 pos = some (resolveBitConflict b1 b2).1 := by
      rw [mergePairedBitVectors, h1, h2]
      simp [Ne.symm hne]
    refine ⟨?_, ?_, ?_, ?_, ?_, ?_, ?_, ?_, ?_⟩
    · intro h; rw [hmerge, resolve_nomut b1 b2 h]
    · intro ha hb; rw [hmerge, resolve_ambig_left b1 b2 ha hb]
    · intro ha hb; rw [hmerge, resolve_ambig_right b1 b2 ha hb]
    · intro ha hb hc; rw [hmerge, resolve_miss_left b1 b2 ha hb hc]
    · intro ha hb hc; rw [hmerge, resolve_miss_right b1 b2 ha hb hc]
    · intro ha hb; rw [hmerge, resolve_two_bases b1 b2 ha hb]
    · intro ha hb; rw [hmerge, resolve_mut_vs_del b1 b2 (Or.inl ⟨ha, hb⟩)]
    · intro ha hb; rw [hmerge, resolve_mut_vs_del b1 b2 (Or.inr ⟨ha, hb⟩)]
    · intro ha _; rw [hmerge, resolve_nomut b1 b2 (Or.inl ha)]
  · intro h1
    rw [mergePairedBitVectors, h1]
    cases bv2 pos <;> rfl
  · intro h2
    rw [mergePairedBitVectors, h2]
    cases bv1 pos <;> rfl
  · rw [mergePairedBitVectors]
    rcases bv1 pos with _ | b1 <;> rcases bv2 pos with _ | b2 <;> simp
    split <;> simp

/-- Witness for C5: mate 1 carries the no-mutation bit and mate 2 a mutation
call `G` at position 7; the merged vector keeps the no-mutation bit there. -/
theorem merge_paired_spec_witness :
    mergePairedBitVectors (fun p => if p = 7 then some '0' else none)
      (fun p => if p = 7 then some 'G' else none) 7 = some '0' :=
  ((merge_paired_spec (fun p => if p = 7 then some '0' else none)
      (fun p => if p = 7 then some 'G' else none) 7).1 '0' 'G'
      (by decide) (by decide) (by decide)).2.2.2.2.2.2.2.2
    (by decide) (by decide)

/-- Claim C9: on any two distinct symbols from the fixed alphabet the
conflict resolver never reaches its warn-and-fall-back branch. -/
theorem resolve_no_fallback (b1 b2 : Char) (h1 : b1 ∈ alphabet) (h2 : b2 ∈ alphabet)
    (hne : b1 ≠ b2) : (resolveBitConflict b1 b2).2 = false := by
  simp only [alphabet, List.mem_cons, List.not_mem_nil, or_false] at h1 h2
  rcases h1 with rfl | rfl | rfl | rfl | rfl | rfl | rfl | rfl <;>
    rcases h2 with rfl | rfl | rfl | rfl | rfl | rfl | rfl | rfl <;>
    first
      | exact absurd rfl hne
      | decide

/-- Witness for C9: the missing and ambiguous bits conflict without reaching
the fallback branch. -/
theorem resolve_no_fallback_witness : (resolveBitConflict '*' '?').2 = false :=
  resolve_no_fallback '*' '?' (by decide) (by decide) (by decide)

/-- The signal-to-noise accumulation loop computes the two filtered sums. -/
theorem s2nLoop_eq (seq : List Char) (muts : List Int) :
    ∀ (coords : List Int) (ac gu : Int),
      s2nLoop seq muts coords (ac, gu) =
        (ac + ((coords.filter (fun pos =>
            pyGetD seq (pos - 1) '_' = 'A' ∨ pyGetD seq (pos - 1) '_' = 'C')).map
            (npGetD muts)).sum,
         gu + ((coords.filter (fun pos =>
            ¬(pyGetD seq (pos - 1) '_' = 'A' ∨ pyGetD seq (pos - 1) '_' = 'C'))).map
            (npGetD muts)).sum) := by
  intro coords
  induction coords with
  | nil => intro ac gu; simp [s2nLoop]
  | cons pos rest ih =>
    intro ac gu
    by_cases h : pyGetD seq (pos - 1) '_' = 'A' ∨ pyGetD seq (pos - 1) '_' = 'C'
    · rw [s2nLoop, if_pos h, ih]
      rcases h with h | h <;> simp [List.filter_cons, h, add_assoc]
    · rw [s2nLoop, if_neg h, ih]
      push_neg at h
      simp [List.filter_cons, h.1, h.2, add_assoc]

/-- The loop started at `(0, 0)` over the histogram's window computes exactly
the claim's `AC` and `GU` numerators. -/
theorem s2nLoop_spec (mh : MutationHistogram) :
    s2nLoop mh.sequence mh.mut_bases (get_nuc_coords mh) (0, 0) =
      (specAC mh, specGU mh) := by
  rw [s2nLoop_eq]
  simp [specAC, specGU]

/-- Claim C7 (amended): `get_signal_to_noise` raises a division error exactly
when the reference has no A/C bases or no G/U/T bases (in particular a
reference with A/C bases but no G/U/T bases still raises); otherwise it
returns `0.0` when the computed `GU` value is exactly zero and
`round(AC / GU, 2)` otherwise, with `AC` (resp. `GU`) the summed mutation
counts at window positions whose reference base is `A`/`C` (resp. the
remaining positions) divided by the reference's count of such bases. -/
theorem get_signal_to_noise_spec (mh : MutationHistogram) :
    (exceptIsError (get_signal_to_noise mh) = true ↔
      mh.sequence.count 'A' + mh.sequence.count 'C' = 0 ∨
      mh.sequence.count 'G' + mh.sequence.count 'U' + mh.sequence.count 'T' = 0) ∧
    (mh.sequence.count 'A' + mh.sequence.count 'C' ≠ 0 →
     mh.sequence.count 'G' + mh.sequence.count 'U' + mh.sequence.count 'T' ≠ 0 →
      get_signal_to_noise mh =
        (if (specGU mh : ℚ) /
              ((mh.sequence.count 'G' + mh.sequence.count 'U' + mh.sequence.count 'T' : Nat) : ℚ) = 0
         then Except.ok 0
         else Except.ok (pyRound2
            (((specAC mh : ℚ) / ((mh.sequence.count 'A' + mh.sequence.count 'C' : Nat) : ℚ)) /
             ((specGU mh : ℚ) /
              ((mh.sequence.count 'G' + mh.sequence.count 'U' + mh.sequence.count 'T' : Nat) : ℚ)))))) := by
  constructor
  · rw [get_signal_to_noise]
    by_cases hac : mh.sequence.count 'A' + mh.sequence.count 'C' = 0
    · simp [hac, exceptIsError]
    · by_cases hgu : mh.sequence.count 'G' + mh.sequence.count 'U' + mh.sequence.count 'T' = 0
      · simp [hac, hgu, exceptIsError]
      · simp only [hac, hgu, if_false, if_neg hac, if_neg hgu]
        constructor
        · intro h
          exfalso
          revert h
          split <;> simp [exceptIsError]
        · rintro (h | h) <;> exact h.elim
  · intro hac hgu
    rw [get_signal_to_noise]
    rw [if_neg hac, if_neg hgu, s2nLoop_spec]

/-- Witness for the amended C7: on `mhA` (reference `AC`, which has no G/U/T
bases) `get_signal_to_noise` raises. -/
theorem get_signal_to_noise_spec_witness :
    exceptIsError (get_signal_to_noise mhA) = true :=
  (get_signal_to_noise_spec mhA).1.mpr (Or.inr (by decide))

/-- Claim C8: a bit vector containing any read with mapping quality below the
cutoff is recorded as a `low_mapq` skip: `num_reads` and the `low_mapq` skip
counter are incremented and every other histogram component is unchanged. -/
theorem record_low_mapq_frame (p : BVParams) (refSeq : List Char)
    (mh : MutationHistogram) (bv : BitVector)
    (h : ∃ r ∈ bv.reads, r.mapq < p.map_score_cutoff) :
    recordBitVector p refSeq mh bv = record_skip mh SkipType.low_mapq ∧
    (recordBitVector p refSeq mh bv).num_reads = mh.num_reads + 1 ∧
    (recordBitVector p refSeq mh bv).skips.low_mapq = mh.skips.low_mapq + 1 ∧
    (recordBitVector p refSeq mh bv).num_aligned = mh.num_aligned ∧
    (recordBitVector p refSeq mh bv).mut_bases = mh.mut_bases ∧
    (recordBitVector p refSeq mh bv).cov_bases = mh.cov_bases ∧
    (recordBitVector p refSeq mh bv).del_bases = mh.del_bases ∧
    (recordBitVector p refSeq mh bv).info_bases = mh.info_bases ∧
    (recordBitVector p refSeq mh bv).ins_bases = mh.ins_bases ∧
    (recordBitVector p refSeq mh bv).mod_bases = mh.mod_bases ∧
    (recordBitVector p refSeq mh bv).num_of_mutations = mh.num_of_mutations ∧
    (recordBitVector p refSeq mh bv).skips.short_read = mh.skips.short_read ∧
    (recordBitVector p refSeq mh bv).skips.too_many_muts = mh.skips.too_many_muts ∧
    (recordBitVector p refSeq mh bv).skips.muts_too_close = mh.skips.muts_too_close := by
  have hany : bv.reads.any (fun r => r.mapq < p.map_score_cutoff) = true := by
    rw [List.any_eq_true]
    obtain ⟨r, hr, hlt⟩ := h
    exact ⟨r, hr, by simpa using hlt⟩
  have hrec : recordBitVector p refSeq mh bv = record_skip mh SkipType.low_mapq := by
    rw [recordBitVector, if_pos hany]
  refine ⟨hrec, ?_, ?_, ?_, ?_, ?_, ?_, ?_, ?_, ?_, ?_, ?_, ?_, ?_⟩ <;> rw [hrec] <;> rfl

/-- A read with mapping quality 5, below the witness cutoff of 20. -/
def readW : AlignedRead :=
  { qname := "q1", rname := "ref", pos := 1, mapq := 5
    seq := ['A', 'C'], qual := ['I', 'I'] }

/-- Parameters with a mapping-quality cutoff of 20 and stricter constraints
off. -/
def paramsW : BVParams :=
  { map_score_cutoff := 20, stricter_bv_constraints := false
    percent_length_cutoff := 0, mutation_count_cutoff := 0, min_mut_distance := 0 }

/-- A bit vector whose only read is `readW`. -/
def bvW : BitVector := { reads := [readW], data := fun _ => none }

/-- Witness for C8: recording `bvW` against `mhA` bumps `num_reads` and the
`low_mapq` counter and leaves `mut_bases` alone. -/
theorem record_low_mapq_frame_witness :
    (recordBitVector paramsW ['A', 'C'] mhA bvW).num_reads = mhA.num_reads + 1 ∧
    (recordBitVector paramsW ['A', 'C'] mhA bvW).skips.low_mapq = mhA.skips.low_mapq + 1 ∧
    (recordBitVector paramsW ['A', 'C'] mhA bvW).mut_bases = mhA.mut_bases :=
  have h := record_low_mapq_frame paramsW ['A', 'C'] mhA bvW
    ⟨readW, by simp [bvW], by decide⟩
  ⟨h.2.1, h.2.2.1, h.2.2.2.2.1⟩

/-! ## Symbol-alphabet invariants of the converter (claim C10) -/

/-- Number of read characters a CIGAR operation list consumes. -/
def readConsumed : List (Nat × Char) → Nat
  | [] => 0
  | (len, desc) :: rest =>
    (if desc = 'M' ∨ desc = 'I' ∨ desc = 'S' then len else 0) + readConsumed rest

/-- Every mutation-call letter is in the alphabet. -/
theorem bases_subset_alphabet : ∀ c ∈ bases, c ∈ alphabet := by decide

/-- Symbols a match run adds beyond the incoming map: the no-mutation bit,
the ambiguous bit, or an in-range read character that beats the quality
cutoff and differs from the reference base left of the written position. -/
theorem processMatch_out (phred : Char → Nat) (cutoff : Nat)
    (readSeq qScores refSeq : List Char) :
    ∀ (L : Nat) (bv : Int → Option Char) (i : Int) (j : Nat),
      j + L ≤ readSeq.length →
      ∀ (p : Int) (sym : Char),
        (processMatchOperation phred cutoff readSeq qScores refSeq bv i j L).1 p = some sym →
        bv p = some sym ∨ sym = bts.nomut_bit ∨ sym = bts.ambig_info ∨
          ∃ jx, jx < readSeq.length ∧ readSeq.getD jx 'N' = sym ∧
            phred (qScores.getD jx '!') > cutoff ∧ sym ≠ pyGetD refSeq (p - 1) 'N' := by
  intro L
  induction L with
  | zero => intro bv i j hb p sym hp; exact Or.inl hp
  | succ n ih =>
    intro bv i j hb p sym hp
    rw [processMatchOperation] at hp
    rcases ih _ (i + 1) (j + 1) (by omega) p sym hp with hbv | hgood
    · rw [updateBv] at hbv
      by_cases hpi : p = i
      · rw [if_pos hpi] at hbv
        by_cases hqc : phred (qScores.getD j '!') > cutoff
        · rw [if_pos hqc] at hbv
          by_cases hmm : readSeq.getD j 'N' ≠ pyGetD refSeq (i - 1) 'N'
          · rw [if_pos hmm] at hbv
            refine Or.inr (Or.inr (Or.inr ⟨j, by omega, ?_, hqc, ?_⟩))
            · exact (Option.some.injEq _ _ ▸ hbv)
            · rw [← Option.some_inj.mp hbv, hpi]
              exact hmm
          · rw [if_neg hmm] at hbv
            exact Or.inr (Or.inl (Option.some_inj.mp hbv).symm)
        · rw [if_neg hqc] at hbv
          exact Or.inr (Or.inr (Or.inl (Option.some_inj.mp hbv).symm))
      · rw [if_neg hpi] at hbv
        exact Or.inl hbv
    · exact Or.inr hgood

/-- An ambiguous-bit run only adds the ambiguous bit. -/
theorem writeAmbigRun_out :
    ∀ (L : Nat) (bv : Int → Option Char) (i : Int) (p : Int) (sym : Char),
      (writeAmbigRun bv i L).1 p = some sym →
      bv p = some sym ∨ sym = bts.ambig_info := by
  intro L
  induction L with
  | zero => intro bv i p sym hp; exact Or.inl hp
  | succ n ih =>
    intro bv i p sym hp
    rcases ih _ (i + 1) p sym hp with hbv | hgood
    · rw [updateBv] at hbv
      by_cases hpi : p = i
      · rw [if_pos hpi] at hbv
        exact Or.inr (Option.some_inj.mp hbv).symm
      · rw [if_neg hpi] at hbv
        exact Or.inl hbv
    · exact Or.inr hgood

/-- A missing-bit run only adds the missing bit. -/
theorem writeMissRun_out :
    ∀ (L : Nat) (bv : Int → Option Char) (i : Int) (p : Int) (sym : Char),
      (writeMissRun bv i L).1 p = some sym →
      bv p = some sym ∨ sym = bts.miss_info := by
  intro L
  induction L with
  | zero => intro bv i p sym hp; exact Or.inl hp
  | succ n ih =>
    intro bv i p sym hp
    rcases ih _ (i + 1) p sym hp with hbv | hgood
    · rw [updateBv] at hbv
      by_cases hpi : p = i
      · rw [if_pos hpi] at hbv
        exact Or.inr (Option.some_inj.mp hbv).symm
      · rw [if_neg hpi] at hbv
        exact Or.inl hbv
    · exact Or.inr hgood

/-- A deletion operation only adds the ambiguous or the deletion bit. -/
theorem processDeletion_out (refSeq : List Char) (W : Nat)
    (bv : Int → Option Char) (i : Int) (L : Nat) (p : Int) (sym : Char)
    (hp : (processDeletionOperation refSeq W bv i L).1 p = some sym) :
    bv p = some sym ∨ sym = bts.ambig_info ∨ sym = bts.del_bit := by
  rw [processDeletionOperation] at hp
  simp only [updateBv] at hp
  by_cases hpr : p = (writeAmbigRun bv i (L - 1)).2
  · rw [if_pos hpr] at hp
    have := Option.some_inj.mp hp
    split at this
    · exact Or.inr (Or.inl this.symm)
    · exact Or.inr (Or.inr this.symm)
  · rw [if_neg hpr] at hp
    rcases writeAmbigRun_out (L - 1) bv i p sym hp with hbv | hgood
    · exact Or.inl hbv
    · exact Or.inr (Or.inl hgood)

/-- The read cursor after a soft clip. -/
theorem processSoftClip_j (bv : Int → Option Char) (i : Int) (j L : Nat) (b : Bool) :
    (processSoftClipOperation bv i j L b).2.2 = j + L := by
  cases b <;> simp [processSoftClipOperation]

/-- A soft-clip operation only adds the missing bit. -/
theorem processSoftClip_out (bv : Int → Option Char) (i : Int) (j : Nat)
    (L : Nat) (isLast : Bool) (p : Int) (sym : Char)
    (hp : (processSoftClipOperation bv i j L isLast).1 p = some sym) :
    bv p = some sym ∨ sym = bts.miss_info := by
  rw [processSoftClipOperation] at hp
  by_cases hl : isLast = true
  · rw [if_pos hl] at hp
    exact writeMissRun_out L bv i p sym hp
  · rw [if_neg hl] at hp
    exact Or.inl hp

/-- Every symbol the dispatch loop adds is a fixed symbol or an in-range read
character emitted at a high-quality mismatch. -/
theorem convertGo_out (phred : Char → Nat) (cutoff W : Nat)
    (readSeq qScores refSeq : List Char) :
    ∀ (ops : List (Nat × Char)) (bv : Int → Option Char) (i : Int) (j : Nat),
      j + readConsumed ops ≤ readSeq.length →
      ∀ (p : Int) (sym : Char),
        convertGo phred cutoff W readSeq qScores refSeq bv i j ops p = some sym →
        bv p = some sym ∨ sym = bts.nomut_bit ∨ sym = bts.ambig_info ∨
          sym = bts.miss_info ∨ sym = bts.del_bit ∨
          ∃ jx, jx < readSeq.length ∧ readSeq.getD jx 'N' = sym ∧
            phred (qScores.getD jx '!') > cutoff ∧ sym ≠ pyGetD refSeq (p - 1) 'N' := by
  intro ops
  induction ops with
  | nil => intro bv i j hb p sym hp; exact Or.inl hp
  | cons op rest ih =>
    intro bv i j hb p sym hp
    obtain ⟨len, desc⟩ := op
    rw [convertGo] at hp
    by_cases hM : desc = 'M'
    · rw [if_pos hM] at hp
      have hblen : j + len + readConsumed rest ≤ readSeq.length := by
        simp [readConsumed, hM] at hb
        omega
      have hcur := (processMatch_cursors phred cutoff readSeq qScores refSeq len bv i j).2
      rcases ih _ _ _ (by rw [hcur]; exact hblen) p sym hp with hbv | hgood
      · rcases processMatch_out phred cutoff readSeq qScores refSeq len bv i j
          (by omega) p sym hbv with h0 | h1 | h2 | h3
        · exact Or.inl h0
        · exact Or.inr (Or.inl h1)
        · exact Or.inr (Or.inr (Or.inl h2))
        · exact Or.inr (Or.inr (Or.inr (Or.inr (Or.inr h3))))
      · exact Or.inr hgood
    · rw [if_neg hM] at hp
      by_cases hD : desc = 'D'
      · rw [if_pos hD] at hp
        have hblen : j + readConsumed rest ≤ readSeq.length := by
          rw [readConsumed] at hb
          omega
        rcases ih _ _ _ hblen p sym hp with hbv | hgood
        · rcases processDeletion_out refSeq W bv i len p sym hbv with h0 | h1 | h2
          · exact Or.inl h0
          · exact Or.inr (Or.inr (Or.inl h1))
          · exact Or.inr (Or.inr (Or.inr (Or.inr (Or.inl h2))))
        · exact Or.inr hgood
      · rw [if_neg hD] at hp
        by_cases hI : desc = 'I'
        · rw [if_pos hI] at hp
          have hblen : j + len + readConsumed rest ≤ readSeq.length := by
            simp [readConsumed, hI, hM] at hb
            omega
          rcases ih _ _ _ hblen p sym hp with hbv | hgood
          · exact Or.inl hbv
          · exact Or.inr hgood
        · rw [if_neg hI] at hp
          by_cases hS : desc = 'S'
          · rw [if_pos hS] at hp
            have hblen : j + len + readConsumed rest ≤ readSeq.length := by
              simp [readConsumed, hS, hM, hI] at hb
              omega
            rcases ih _ _ _ (by rw [processSoftClip_j]; exact hblen) p sym hp with hbv | hgood
            · rcases processSoftClip_out bv i j len rest.isEmpty p sym hbv with h0 | h1
              · exact Or.inl h0
              · exact Or.inr (Or.inr (Or.inr (Or.inl h1)))
            · exact Or.inr hgood
          · rw [if_neg hS] at hp
            exact absurd hp (by rw [emptyBv]; simp)

/-- Claim C10: over a read whose characters all lie in `{A, C, G, T}` (with
the CIGAR consuming no more read characters than exist), every symbol the
converter emits belongs to the fixed alphabet; and any symbol outside the
alphabet can only be an in-range read character that is not a base letter,
emitted at a position whose quality beats the cutoff and whose read character
differs from the reference base there. -/
theorem converter_alphabet_spec (phred : Char → Nat) (cutoff W : Nat)
    (readSeq qScores refSeq : List Char) (pos : Int) (ops : List (Nat × Char))
    (hb : readConsumed ops ≤ readSeq.length) :
    ((∀ c ∈ readSeq, c ∈ bases) →
      ∀ (p : Int) (sym : Char),
        convertReadToBitVector phred cutoff W readSeq qScores refSeq pos ops p = some sym →
        sym ∈ alphabet) ∧
    (∀ (p : Int) (sym : Char),
      convertReadToBitVector phred cutoff W readSeq qScores refSeq pos ops p = some sym →
      sym ∉ alphabet →
      ∃ jx, jx < readSeq.length ∧ readSeq.getD jx 'N' = sym ∧ sym ∉ bases ∧
        phred (qScores.getD jx '!') > cutoff ∧ sym ≠ pyGetD refSeq (p - 1) 'N') := by
  have hout := convertGo_out phred cutoff W readSeq qScores refSeq ops emptyBv pos 0
    (by omega)
  constructor
  · intro hread p sym hp
    rcases hout p sym hp with h0 | h1 | h2 | h3 | h4 | h5
    · exact absurd h0 (by rw [emptyBv]; simp)
    · rw [h1]; decide
    · rw [h2]; decide
    · rw [h3]; decide
    · rw [h4]; decide
    · obtain ⟨jx, hjx, hget, _, _⟩ := h5
      refine bases_subset_alphabet sym ?_
      rw [← hget, List.getD_eq_getElem readSeq 'N' hjx]
      exact hread _ (List.getElem_mem _)
  · intro p sym hp hsym
    rcases hout p sym hp with h0 | h1 | h2 | h3 | h4 | h5
    · exact absurd h0 (by rw [emptyBv]; simp)
    · exact absurd (h1 ▸ (by decide : bts.nomut_bit ∈ alphabet)) hsym
    · exact absurd (h2 ▸ (by decide : bts.ambig_info ∈ alphabet)) hsym
    · exact absurd (h3 ▸ (by decide : bts.miss_info ∈ alphabet)) hsym
    · exact absurd (h4 ▸ (by decide : bts.del_bit ∈ alphabet)) hsym
    · obtain ⟨jx, hjx, hget, hqc, hne⟩ := h5
      refine ⟨jx, hjx, hget, ?_, hqc, hne⟩
      intro hbase
      exact hsym (bases_subset_alphabet sym hbase)

/-- Witness for C10: a single high-quality mismatching base over reference
`C` with read `A` emits the mutation-call letter `A`, which is in the
alphabet. -/
theorem converter_alphabet_spec_witness : 'A' ∈ alphabet :=
  (converter_alphabet_spec phredW 25 10 ['A'] ['I'] ['C'] 1 [(1, 'M')]
      (by decide)).1 (by decide) 1 'A' (by decide)

end RnaMap
